import Mathlib

/-!
Shallow embedding of the debug-information resolution engine in
`src/lib/inspect.cpp` (the memory map of a causal profiler), together with
theorems checking the natural-language specification against it.

Strings are modelled through their underlying `List Char`; machine addresses
(`uintptr_t`, `uint64_t`) are modelled as `Nat` (no arithmetic in the source
overflows: addresses are only compared and offset by a load base).

Code of the repository that is not part of `src/` (the class declarations in
`causal/inspect.h`: the `interval` key ordering of `_ranges`, `get_file`,
`get_line`, `has_line`, `files()`) is modelled from the spec; every such
definition carries a doc comment starting with `Modelled from the spec:`.
-/

/-! ## Path strings

`inspect.cpp` normalizes source paths with `boost::filesystem::path::normalize`
(lexical removal of `.` and `..` segments and redundant separators).  The model
below works on `List Char` segments split at `'/'`.
-/

/-- Split a character list at every `'/'` (the separators are dropped; empty
segments mark redundant separators).  The result is always nonempty. -/
def splitSlash : List Char → List (List Char)
  | [] => [[]]
  | c :: cs =>
    if c = '/' then [] :: splitSlash cs
    else
      match splitSlash cs with
      | [] => [[c]]
      | s :: ss => (c :: s) :: ss

/-- One step of lexical path cleanup over a stack of already-kept segments
(top of the stack first): empty and `"."` segments are dropped, `".."` pops
the previous segment when one is available. -/
def normStep (stack : List (List Char)) (seg : List Char) : List (List Char) :=
  if seg = [] ∨ seg = ['.'] then stack
  else if seg = ['.', '.'] then
    match stack with
    | [] => [seg]
    | top :: rest => if top = ['.', '.'] then seg :: stack else rest
  else seg :: stack

/-- Join segments back with `'/'` separators. -/
def joinSlash : List (List Char) → List Char
  | [] => []
  | [s] => s
  | s :: ss => s ++ '/' :: joinSlash ss

/-- Model of `boost::filesystem::path(p).normalize().string()` as used by
`inspect.cpp`: lexical removal of `"."` and `".."` segments and of redundant
separators, keeping absoluteness.  (Boost details that the repository never
exercises — trailing separators, root-level `".."` — are simplified to the
same lexical cleanup.) -/
def normalizePath (p : String) : String :=
  if p.data = [] then ""
  else if p.data.head? = some '/' then
    ⟨'/' :: joinSlash (((splitSlash p.data).foldl normStep []).reverse)⟩
  else if ((splitSlash p.data).foldl normStep []).reverse = [] then "."
  else ⟨joinSlash (((splitSlash p.data).foldl normStep []).reverse)⟩

/-- `in_scope` from `inspect.cpp` (lines 231-238): a file is in scope when its
normalized path has one of the scope strings as a prefix
(`path(file).normalize().string().find(s) == 0`). -/
def in_scope (file : String) (scope : List String) : Bool :=
  scope.any (fun s => s.data.isPrefixOf (normalizePath file).data)

/-! ## The address range index (`memory_map` state) -/

/-- The half-open address interval `[base, limit)` of `causal/inspect.h`,
already shifted into absolute addresses where the source adds a load base. -/
structure interval where
  base : Nat
  limit : Nat
deriving DecidableEq

/-- Modelled from the spec: a point containment query against a half-open
interval (§3: "a half-open address range `[low, high)`"). -/
def interval.contains (i : interval) (a : Nat) : Bool :=
  decide (i.base ≤ a) && decide (a < i.limit)

/-- Modelled from the spec: two intervals collide (are equivalent keys of the
range index) when they overlap; this is the equivalence induced by the
interval ordering of `causal/inspect.h` that makes point queries containment
queries. -/
def interval.overlaps (i j : interval) : Bool :=
  decide (j.base < i.limit) && decide (i.base < j.limit)

/-- A source line identity: `line` of `causal/inspect.h`.  The spec (§3) keys
Line identity by (file, number), so the model carries exactly that pair. -/
structure line where
  file : String
  number : Nat
deriving DecidableEq

/-- A source file record: `file` of `causal/inspect.h`.  Holds the normalized
path it is keyed by and the set of line numbers created so far. -/
structure file where
  name : String
  lines : List Nat
deriving DecidableEq

/-- Modelled from the spec: `file::has_line` — whether a Line with this number
already exists in the file. -/
def file.has_line (f : file) (n : Nat) : Bool :=
  f.lines.contains n

/-- Modelled from the spec: `file::get_line` — obtain or lazily create the Line
record for a number (§3: "Created lazily on first reference"). -/
def file.get_line (f : file) (n : Nat) : file :=
  if f.lines.contains n then f else { f with lines := f.lines ++ [n] }

/-- The `memory_map` state: the owned File records (in creation order) and the
Interval→Line range index (in insertion order; stored intervals are pairwise
non-overlapping because colliding inserts are dropped, see `add_range`). -/
structure memory_map where
  files : List file
  ranges : List (interval × line)
deriving DecidableEq

def memory_map.empty : memory_map := ⟨[], []⟩

/-- Modelled from the spec: `memory_map::get_file` — obtain or create the File
for the normalized path (§4.5: "obtains or creates the File for the normalized
path"; §3: "One File instance exists per distinct normalized path").
Realized as an upsert on the file list keyed by `normalizePath`. -/
def upsertFile : List file → String → Nat → List file
  | [], key, n => [⟨key, [n]⟩]
  | f :: fs, key, n =>
    if f.name = key then f.get_line n :: fs else f :: upsertFile fs key n

/-- `memory_map::add_range` (`inspect.cpp` lines 264-277): get or create the
file and line records, then emplace `range ↦ line` into `_ranges`.
Modelled from the spec: the emplace into the interval-keyed map is a no-op
when the new interval collides with (overlaps) a stored one (§9:
"first-write-wins — treat a later conflicting insert as a benign no-op"). -/
def memory_map.add_range (m : memory_map) (filename : String) (line_no : Nat)
    (range : interval) : memory_map :=
  let key := normalizePath filename
  let l : line := ⟨key, line_no⟩
  let files := upsertFile m.files key line_no
  if m.ranges.any (fun p => p.1.overlaps range) then { files := files, ranges := m.ranges }
  else { files := files, ranges := m.ranges ++ [(range, l)] }

/-- `memory_map::find_line(uintptr_t)` (`inspect.cpp` lines 428-435): point
query of `_ranges`.  Modelled from the spec: returns the Line whose stored
interval contains the address, or nothing (§4.5).  Stored intervals never
overlap, so scanning for the containing interval is the map lookup. -/
def memory_map.find_line_addr (m : memory_map) (addr : Nat) : Option line :=
  (m.ranges.find? (fun p => p.1.contains addr)).map (fun p => p.2)

/-! ## String-query lookup (`memory_map::find_line(const string&)`) -/

/-- The position test of `find_line(string)` (`inspect.cpp` lines 417-418):
`last_pos = hay.rfind(needle); last_pos != npos && last_pos + needle.size()
== hay.size()`.  `occursAt needle hay p` is "`needle` occurs in `hay` at
position `p`" (`p` may be `hay.length` only for the empty needle). -/
def occursAt (needle hay : List Char) (p : Nat) : Bool :=
  decide (p ≤ hay.length) && ((hay.drop p).take needle.length == needle)

/-- `std::string::rfind`: the greatest position `≤ k` at which the needle
occurs, scanning downward from `k`. -/
def rfindAux (needle hay : List Char) : Nat → Option Nat
  | 0 => if occursAt needle hay 0 then some 0 else none
  | p + 1 => if occursAt needle hay (p + 1) then some (p + 1) else rfindAux needle hay p

def rfind (needle hay : List Char) : Option Nat :=
  rfindAux needle hay hay.length

/-- The full suffix condition of `find_line(string)`: the last occurrence of
the query file name inside the stored path ends exactly at the end of the
stored path. -/
def suffix_at_end (needle hay : List Char) : Bool :=
  match rfind needle hay with
  | some p => p + needle.length == hay.length
  | none => false

/-- `name.find_first_of(':')` and the two `substr` calls of `find_line(string)`
(`inspect.cpp` lines 404-411): split at the first `':'`, or fail when there is
none. -/
def splitAtColon (cs : List Char) : Option (List Char × List Char) :=
  if cs.contains ':' then
    some (cs.takeWhile (fun c => c ≠ ':'), (cs.dropWhile (fun c => c ≠ ':')).drop 1)
  else none

/-- `stringstream(line_no_str) >> line_no` (`inspect.cpp` line 414): read a
decimal prefix; a failed extraction value-initializes the target to `0`. -/
def parseNatPrefix (cs : List Char) : Nat :=
  (cs.takeWhile Char.isDigit).foldl (fun acc c => acc * 10 + (c.toNat - '0'.toNat)) 0

/-- `memory_map::find_line(const string&)` (`inspect.cpp` lines 403-426):
split the query at the first colon, parse the line number, and scan the known
files for one whose stored path ends with the query file name (plain `rfind`
position check) and which has the requested line. -/
def memory_map.find_line_str (m : memory_map) (name : String) : Option line :=
  match splitAtColon name.data with
  | none => none
  | some (fn, rest) =>
    let line_no := parseNatPrefix rest
    (m.files.find? (fun f => suffix_at_end fn f.name.data && f.has_line line_no)).map
      (fun f => ⟨f.name, line_no⟩)

/-! ## The line table walker (`memory_map::process_file`, lines 375-398)

The iteration over libelfin's materialized DWARF line table is modelled over
an input list of rows; what the loop body does with each row is translated
from the source.  The walker is modelled as emitting the `add_range` calls it
makes, as triples `(filename, line, interval)` (the interval already shifted
by the load address).
-/

/-- One row of a DWARF line table as exposed by libelfin
(`line_info` in the source loop): address, source file path, line number,
end-of-sequence flag. -/
structure line_row where
  address : Nat
  file : String
  line : Nat
  end_sequence : Bool
deriving DecidableEq

/-- The loop state of `process_file`: the previous non-terminal row's
normalized file name, line and address (`prev_address = 0` meaning "no
previous row", as in the source). -/
structure walk_state where
  prev_filename : String
  prev_line : Nat
  prev_address : Nat
deriving DecidableEq

/-- The emission decision of one loop iteration (`inspect.cpp` lines 383-387):
if there is a previous row and it is in scope, emit an entry from the previous
row's address to this row's address, both shifted by the load address,
attributed to the previous row's (file, line). -/
def walk_emit (scope : List String) (load_address : Nat) (st : walk_state)
    (row : line_row) : Option (String × Nat × interval) :=
  if st.prev_address != 0 && in_scope st.prev_filename scope then
    some (st.prev_filename, st.prev_line,
          ⟨st.prev_address + load_address, row.address + load_address⟩)
  else none

/-- The state update of one loop iteration (`inspect.cpp` lines 389-395): an
end-of-sequence row resets the previous address, any other row becomes the
previous row (with its path normalized). -/
def walk_next (st : walk_state) (row : line_row) : walk_state :=
  if row.end_sequence then { st with prev_address := 0 }
  else ⟨normalizePath row.file, row.line, row.address⟩

/-- The whole line-table loop of `process_file`, collecting the `add_range`
calls it performs in order. -/
def walk_rows (scope : List String) (load_address : Nat) :
    walk_state → List line_row → List (String × Nat × interval)
  | _, [] => []
  | st, row :: rest =>
    (walk_emit scope load_address st row).toList
      ++ walk_rows scope load_address (walk_next st row) rest

/-- The initial loop state of `process_file` (line 377-379): no previous row
(`prev_address = 0`; `prev_filename` default-constructs to empty). -/
def walk_init : walk_state := ⟨"", 0, 0⟩

/-! ## DWARF debug-info nodes and `find_attribute` (lines 240-262) -/

/-- The DWARF attributes read by `inspect.cpp`.  The `abstract_origin` and
`specification` reference attributes are modelled structurally as fields of
the node (see `dwdie`). -/
inductive dwat where
  | name
  | decl_file
  | decl_line
  | call_file
  | call_line
deriving DecidableEq

/-- The DWARF tags the source distinguishes. -/
inductive dwtag where
  | inlined_subroutine
  | other
deriving DecidableEq

/-- A present DWARF attribute value (libelfin `dwarf::value`); an absent value
(`value()` / `!valid()`) is `Option.none` at use sites.  Only the string and
unsigned-constant shapes are exercised by the modelled code. -/
inductive dwvalue where
  | str (s : String)
  | num (n : Nat)
deriving DecidableEq

/-- A DWARF debug-info entry (libelfin `dwarf::die`): either the invalid die,
or a node with a tag, its own attributes, and the dies referenced by its
`DW_AT_abstract_origin` and `DW_AT_specification` attributes (`invalid`
standing for an absent reference). -/
inductive dwdie where
  | invalid
  | node (tag : dwtag) (attrs : List (dwat × dwvalue)) (origin : dwdie) (spec : dwdie)
deriving DecidableEq

/-- Attribute lookup on a node's own attribute list (`d.has(attr)` /
`d[attr]`). -/
def lookupAttr (attrs : List (dwat × dwvalue)) (attr : dwat) : Option dwvalue :=
  (attrs.find? (fun p => p.1 = attr)).map (fun p => p.2)

/-- A die's own attribute (no indirection): `d.valid() && d.has(attr)`
followed by `d[attr]`. -/
def dwdie.selfAttr : dwdie → dwat → Option dwvalue
  | .invalid, _ => none
  | .node _ attrs _ _, attr => lookupAttr attrs attr

/-- `find_attribute` (`inspect.cpp` lines 240-262): return the die's own
attribute if present; otherwise recurse through the `abstract_origin`
reference, then through the `specification` reference, returning the first
valid value found. -/
def find_attribute : dwdie → dwat → Option dwvalue
  | .invalid, _ => none
  | .node _ attrs origin spec, attr =>
    match lookupAttr attrs attr with
    | some v => some v
    | none =>
      match find_attribute origin attr with
      | some v => some v
      | none => find_attribute spec attr

/-- The node resolution order the spec describes for `find_attribute`: the
node itself, then (recursively) the abstract-origin chain, then (recursively)
the specification chain. -/
def resolutionChain : dwdie → List dwdie
  | .invalid => []
  | .node tag attrs origin spec =>
    .node tag attrs origin spec :: (resolutionChain origin ++ resolutionChain spec)

/-- The five attributes `process_inlines` extracts for one inlined-subroutine
node (`inspect.cpp` lines 287-312), with the source's defaults (empty strings,
zero). -/
structure inline_info where
  name : String
  decl_file : String
  decl_line : Nat
  call_file : String
  call_line : Nat
deriving DecidableEq

/-- The attribute-extraction prefix of `memory_map::process_inlines`
(`inspect.cpp` lines 287-312) for a node: `name`, `decl_file` and `decl_line`
are resolved through `find_attribute`; `call_file` and `call_line` are read
from the node's own attributes only (`d.has(...)` / `d[...]`).  File indices
are resolved through the line table's file list (`table.get_file(i)->path`)
when the table is valid. -/
def process_inline_attrs (d : dwdie) (table : List String) (table_valid : Bool) :
    inline_info :=
  let name := match find_attribute d .name with
    | some (.str s) => s
    | _ => ""
  let decl_file := match find_attribute d .decl_file with
    | some (.num i) => if table_valid then table.getD i "" else ""
    | _ => ""
  let decl_line := match find_attribute d .decl_line with
    | some (.num n) => n
    | _ => 0
  let call_file := match d.selfAttr .call_file with
    | some (.num i) => if table_valid then table.getD i "" else ""
    | _ => ""
  let call_line := match d.selfAttr .call_line with
    | some (.num n) => n
    | _ => 0
  ⟨name, decl_file, decl_line, call_file, call_line⟩

/-! ## The debug image locator (`locate_debug_executable`, lines 115-184)

ELF images live on the filesystem; the model takes the filesystem as an
oracle `fs : String → Option elf_image` (`none` = the path cannot be opened,
mirroring `open(...) < 0`).  The pieces of an image the source inspects are
its note sections (for `find_build_id`), whether `.debug_info` is a valid
section, and the `.gnu_debuglink` name.
-/

/-- One ELF note record (`Elf64_Nhdr` plus its descriptor bytes) as walked by
`find_build_id`.  The byte-offset walk of the source is modelled as a record
list; each descriptor byte is a value `< 256`. -/
structure note_rec where
  n_type : Nat
  n_desc : List Nat
deriving DecidableEq

/-- An ELF section as far as `find_build_id` looks at it: whether its header
type is `SHT_NOTE`, and the note records it contains. -/
structure elf_section where
  is_note : Bool
  notes : List note_rec
deriving DecidableEq

/-- `NT_GNU_BUILD_ID` from `<elf.h>`. -/
def NT_GNU_BUILD_ID : Nat := 3

/-- One lowercase hex digit. -/
def hexDigit (n : Nat) : Char :=
  if n < 10 then Char.ofNat ('0'.toNat + n) else Char.ofNat ('a'.toNat + (n - 10))

/-- The hex rendering of `find_build_id` (`inspect.cpp` lines 61-69): each
descriptor byte printed as two lowercase hex digits, zero-filled. -/
def bytesToHex (bytes : List Nat) : List Char :=
  bytes.flatMap (fun b => [hexDigit ((b % 256) / 16), hexDigit (b % 16)])

/-- An ELF image as far as `locate_debug_executable` inspects it. -/
structure elf_image where
  sections : List elf_section
  has_debug_info : Bool
  debuglink : Option String
deriving DecidableEq

/-- `find_build_id` (`inspect.cpp` lines 51-80): scan the note sections in
order and return the hex rendering of the first note whose type is
`NT_GNU_BUILD_ID`, or the empty string. -/
def find_build_id (f : elf_image) : String :=
  match ((f.sections.filter (fun s => s.is_note)).flatMap (fun s => s.notes)).find?
      (fun n => n.n_type == NT_GNU_BUILD_ID) with
  | some n => ⟨bytesToHex n.n_desc⟩
  | none => ""

/-- `full_path.substr(0, full_path.find_last_of('/'))` (`inspect.cpp` line
144): everything before the last `'/'`, or the whole string when there is no
separator (`substr(0, npos)`). -/
def dirChars : List Char → List Char
  | [] => []
  | c :: cs =>
    if cs.contains '/' then c :: dirChars cs
    else if c = '/' then [] else c :: cs

def dirname (s : String) : String := ⟨dirChars s.data⟩

/-- `get_full_path` (`inspect.cpp` lines 86-108).  The filesystem-dependent
parts are oracles: `canon` models `boost::filesystem::canonical`, `path_env`
the split `PATH` variable, `fs_exists` the `exists(p)` test.  An absolute name
is used directly; a name containing a separator is canonicalized; a bare name
is searched across the `PATH` directories, taking the first existing match; on
failure the empty string is returned. -/
def get_full_path (canon : String → String) (path_env : List String)
    (fs_exists : String → Bool) (filename : String) : String :=
  if filename.data.head? = some '/' then filename
  else if filename.data.contains '/' then canon filename
  else
    match (path_env.map (fun dir => dir ++ "/" ++ filename)).find? fs_exists with
    | some p => p
    | none => ""

/-- The fallback search-path list built by `locate_debug_executable`
(`inspect.cpp` lines 146-166): the build-id candidate (when the image yields a
nonempty build id), then the three debug-link candidates (when the image has a
`.gnu_debuglink` section). -/
def debug_search_paths (f : elf_image) (directory : String) : List String :=
  (let build_id := find_build_id f
   if build_id.data.length > 0 then
     [⟨"/usr/lib/debug/.build-id/".data ++ build_id.data.take 2 ++ '/' ::
        (build_id.data.drop 2 ++ ".debug".data)⟩]
   else [])
  ++ (match f.debuglink with
      | some link_name =>
        [directory ++ "/" ++ link_name,
         directory ++ "/.debug/" ++ link_name,
         "/usr/lib/debug" ++ directory ++ "/" ++ link_name]
      | none => [])

/-- The candidate loop of `locate_debug_executable` (`inspect.cpp` lines
168-183): try each path in order; return the first image that opens and has a
valid `.debug_info` section; reset to the invalid image otherwise. -/
def try_search_paths (fs : String → Option elf_image) : List String → Option elf_image
  | [] => none
  | p :: rest =>
    match fs p with
    | some g => if g.has_debug_info then some g else try_search_paths fs rest
    | none => try_search_paths fs rest

/-- `locate_debug_executable` (`inspect.cpp` lines 115-184): resolve the file
name, open and parse it (`fs`), return it if it has `.debug_info`, otherwise
try the fallback candidates in order. -/
def locate_debug_executable (fs : String → Option elf_image)
    (canon : String → String) (path_env : List String)
    (fs_exists : String → Bool) (filename : String) : Option elf_image :=
  let full_path := get_full_path canon path_env fs_exists filename
  if full_path.data.length = 0 then none
  else
    match fs full_path with
    | none => none
    | some f =>
      if f.has_debug_info then some f
      else try_search_paths fs (debug_search_paths f (dirname full_path))

/-! ## The module enumerator (`get_loaded_files`, lines 186-215) -/

/-- The fields `fscanf` parses from one line of `/proc/self/maps`
(`inspect.cpp` lines 197-204). -/
structure maps_row where
  base : Nat
  limit : Nat
  perms : List Char
  offset : Nat
  path : String
deriving DecidableEq

/-- The candidate test of `get_loaded_files` (`inspect.cpp` line 208): mapped
at file offset zero, executable permission (third permission character), and
an absolute backing path. -/
def maps_row.is_candidate (r : maps_row) : Bool :=
  r.offset == 0 && r.perms.get? 2 == some 'x' && r.path.data.head? == some '/'

/-- `result[string(path)] = base` on a `std::map<string, uintptr_t>`: ordered
insert-or-assign, keyed by lexicographic byte order of the path.  A duplicate
key overwrites the stored base. -/
def strLt : List Char → List Char → Bool
  | [], [] => false
  | [], _ :: _ => true
  | _ :: _, [] => false
  | a :: as, b :: bs =>
    if a.toNat < b.toNat then true
    else if b.toNat < a.toNat then false
    else strLt as bs

def map_insert : List (String × Nat) → String → Nat → List (String × Nat)
  | [], k, v => [(k, v)]
  | (k0, v0) :: rest, k, v =>
    if strLt k.data k0.data then (k, v) :: (k0, v0) :: rest
    else if k = k0 then (k, v) :: rest
    else (k0, v0) :: map_insert rest k v

/-- The `do`/`while` scan loop of `get_loaded_files`: the input is the list of
lines of the mapping table, each either a successfully parsed row
(`rc == 8`) or `none` for a malformed line (`rc < 8`, which ends the loop
without inserting); the end of the list is end-of-file.  Before reading a
line the loop stops when libraries are excluded and one candidate has been
collected. -/
def scan_maps (include_libs : Bool) (acc : List (String × Nat)) :
    List (Option maps_row) → List (String × Nat)
  | [] => acc
  | none :: _ => acc
  | some r :: rest =>
    if !include_libs && acc.length == 1 then acc
    else
      let acc' := if r.is_candidate then map_insert acc r.path r.base else acc
      scan_maps include_libs acc' rest

/-- `get_loaded_files` (`inspect.cpp` lines 186-215).  The mapping table is an
oracle: `none` models `fopen("/proc/self/maps", "r")` returning `NULL`.  In
that case the source proceeds to call `fscanf` on the `NULL` stream, which is
undefined behavior (it does not return an empty map); the model makes that
explicit as an error value. -/
def get_loaded_files (maps_file : Option (List (Option maps_row)))
    (include_libs : Bool) : Except String (List (String × Nat)) :=
  match maps_file with
  | none => .error "undefined behavior: fscanf on NULL stream"
  | some rows => .ok (scan_maps include_libs [] rows)

/-! ## Build orchestration (`memory_map::build`, lines 217-229) -/

/-- The C++ exceptions that can cross `process_file`: `std::system_error`
(thrown by libelfin's mmap loader on I/O failures) and libelfin's
`format_error` (derived from `std::runtime_error`, *not* from
`std::system_error`) thrown while parsing malformed ELF/DWARF. -/
inductive cpp_exception where
  | system_error (msg : String)
  | format_error (msg : String)
deriving DecidableEq

/-- What one `process_file(name, base, scope)` call does for a module: return
normally (with its boolean result) or raise an exception.  The outcome is an
input of the model because it depends on the filesystem and on the module's
binary content. -/
inductive process_outcome where
  | returns (found : Bool)
  | raises (e : cpp_exception)
deriving DecidableEq

/-- `memory_map::build` (`inspect.cpp` lines 217-229), modelled over the list
of enumerated modules paired with their processing outcome: each module is
processed inside `try { ... } catch(const system_error& e)`, so a
`system_error` is logged and the loop continues, while any other exception
propagates out of `build`.  The result is the list of modules whose loop
iteration ran to completion. -/
def build : List (String × process_outcome) → Except cpp_exception (List String)
  | [] => .ok []
  | (name, out) :: rest =>
    match out with
    | .returns _ => (build rest).map (fun l => name :: l)
    | .raises (.system_error _) => (build rest).map (fun l => name :: l)
    | .raises e => .error e

/-! ## Theorems: build isolation (C2) and enumerator failure (C9) -/

/-- Whether an outcome is absorbed by the `catch(const system_error&)` handler
of `build` (a normal return, or a raised `std::system_error`). -/
def outcome_contained : process_outcome → Bool
  | .returns _ => true
  | .raises (.system_error _) => true
  | .raises (.format_error _) => false

/-- C2, counterexample: `build` catches only `std::system_error`.  A module
whose debug information is malformed makes libelfin throw a `format_error`
(derived from `std::runtime_error`, not `std::system_error`); it escapes
`build`, and the following module is never processed — the claim says no
exception escapes and the rest are still indexed. -/
theorem c2_counterexample :
    build [("libA.so", .raises (.format_error "truncated DWARF")),
           ("libB.so", .returns true)]
      = .error (.format_error "truncated DWARF") := rfl

/-- C2, amended: `build` isolates a module's failure only for exceptions of
type `std::system_error`; when every module's processing either returns or
raises a `system_error`, no exception escapes and every module's loop
iteration runs. -/
theorem c2_amended (modules : List (String × process_outcome))
    (h : ∀ m ∈ modules, outcome_contained m.2 = true) :
    build modules = .ok (modules.map Prod.fst) := by
  induction modules with
  | nil => rfl
  | cons hd tl ih =>
    obtain ⟨name, out⟩ := hd
    have h1 : outcome_contained out = true := h (name, out) (List.mem_cons_self _ _)
    have h2 : ∀ m ∈ tl, outcome_contained m.2 = true := fun m hm => h m (by simp [hm])
    match out with
    | .returns b => simp [build, ih h2, Except.map]
    | .raises (.system_error s) => simp [build, ih h2, Except.map]
    | .raises (.format_error s) => simp [outcome_contained] at h1

/-- C2, witness: a `system_error` in the middle module is caught and the later
module is still processed. -/
theorem c2_witness :
    build [("app", .returns true),
           ("libc.so", .raises (.system_error "open failed")),
           ("libm.so", .returns false)]
      = .ok ["app", "libc.so", "libm.so"] :=
  c2_amended _ (by decide)

/-- C9: when `/proc/self/maps` cannot be opened, `get_loaded_files` does not
return an empty map — the unchecked `fopen` result is passed straight to
`fscanf`, which is undefined behavior. -/
theorem c9_maps_read_failure (include_libs : Bool) :
    get_loaded_files none include_libs
      = .error "undefined behavior: fscanf on NULL stream" := rfl

/-! ## Theorems: enumerator ordering (C8) -/

/-- Association lookup in the enumerator's result map. -/
def maps_lookup : List (String × Nat) → String → Option Nat
  | [], _ => none
  | (k, v) :: rest, p => if k = p then some v else maps_lookup rest p

/-- The base address of the last candidate mapping of a path, across a fully
parsed mapping table. -/
def last_candidate_base (rows : List maps_row) (p : String) : Option Nat :=
  ((rows.filter maps_row.is_candidate).reverse.find? (fun r => r.path = p)).map
    maps_row.base

theorem strLt_trans : ∀ a b c, strLt a b = true → strLt b c = true → strLt a c = true
  | [], _ :: _, _ :: _, _, _ => rfl
  | [], [], _, h, _ => by simp [strLt] at h
  | _ :: _, [], _, h, _ => by simp [strLt] at h
  | _, _ :: _, [], _, h => by simp [strLt] at h
  | a :: as, b :: bs, c :: cs, h1, h2 => by
    simp only [strLt] at *
    by_cases hab : a.toNat < b.toNat
    · by_cases hbc : b.toNat < c.toNat
      · simp [Nat.lt_trans hab hbc]
      · simp [hbc] at h2
        have hac : a.toNat < c.toNat := Nat.lt_of_lt_of_le hab h2.1
        simp [hac]
    · simp [hab] at h1
      by_cases hbc : b.toNat < c.toNat
      · have hac : a.toNat < c.toNat := Nat.lt_of_le_of_lt h1.1 hbc
        simp [hac]
      · simp [hbc] at h2
        have h1' := h1.2
        have h2' := h2.2
        by_cases hac : a.toNat < c.toNat
        · simp [hac]
        · have hca : ¬ c.toNat < a.toNat := Nat.not_lt.mpr (Nat.le_trans h1.1 h2.1)
          simp [hac, hca, strLt_trans as bs cs h1' h2']

theorem strLt_conn : ∀ a b, strLt a b = false → strLt b a = false → a = b
  | [], [], _, _ => rfl
  | [], _ :: _, h, _ => by simp [strLt] at h
  | _ :: _, [], _, h => by simp [strLt] at h
  | a :: as, b :: bs, h1, h2 => by
    simp only [strLt] at h1 h2
    by_cases hab : a.toNat < b.toNat
    · simp [hab] at h1
    · by_cases hba : b.toNat < a.toNat
      · simp [hba, hab] at h2
      · simp [hab, hba] at h1 h2
        have hn : a.toNat = b.toNat :=
          Nat.le_antisymm (Nat.le_of_not_lt hba) (Nat.le_of_not_lt hab)
        have hc : a = b := Char.ext (UInt32.toNat.inj hn)
        rw [hc, strLt_conn as bs h1 h2]

theorem mem_map_insert : ∀ (m : List (String × Nat)) (k : String) (v : Nat),
    ∀ x ∈ map_insert m k v, x.1 = k ∨ x ∈ m := by
  intro m k v
  induction m with
  | nil =>
    intro x hx
    simp only [map_insert, List.mem_singleton] at hx
    exact Or.inl (by rw [hx])
  | cons hd tl ih =>
    obtain ⟨k0, v0⟩ := hd
    intro x hx
    simp only [map_insert] at hx
    by_cases h1 : strLt k.data k0.data
    · rw [if_pos h1] at hx
      rcases List.mem_cons.mp hx with h | h
      · exact Or.inl (by rw [h])
      · exact Or.inr h
    · by_cases h2 : k = k0
      · rw [if_neg h1, if_pos h2] at hx
        rcases List.mem_cons.mp hx with h | h
        · exact Or.inl (by rw [h])
        · exact Or.inr (List.mem_cons_of_mem _ h)
      · rw [if_neg h1, if_neg h2] at hx
        rcases List.mem_cons.mp hx with h | h
        · exact Or.inr (h ▸ List.mem_cons_self _ _)
        · rcases ih x h with h' | h'
          · exact Or.inl h'
          · exact Or.inr (List.mem_cons_of_mem _ h')

theorem map_insert_sorted : ∀ (m : List (String × Nat)) (k : String) (v : Nat),
    m.Pairwise (fun x y => strLt x.1.data y.1.data = true) →
    (map_insert m k v).Pairwise (fun x y => strLt x.1.data y.1.data = true) := by
  intro m k v
  induction m with
  | nil => intro _; simp [map_insert]
  | cons hd tl ih =>
    obtain ⟨k0, v0⟩ := hd
    intro hs
    rw [List.pairwise_cons] at hs
    obtain ⟨h0, htl⟩ := hs
    simp only [map_insert]
    by_cases h1 : strLt k.data k0.data
    · rw [if_pos h1, List.pairwise_cons]
      constructor
      · intro y hy
        rcases List.mem_cons.mp hy with h | h
        · rw [h]; exact h1
        · exact strLt_trans _ _ _ h1 (h0 y h)
      · exact List.pairwise_cons.mpr ⟨h0, htl⟩
    · by_cases h2 : k = k0
      · rw [if_neg h1, if_pos h2, List.pairwise_cons]
        exact ⟨fun y hy => h2 ▸ h0 y hy, htl⟩
      · rw [if_neg h1, if_neg h2, List.pairwise_cons]
        have h1' : strLt k.data k0.data = false := by
          rcases Bool.eq_false_or_eq_true (strLt k.data k0.data) with h | h
          · exact absurd h h1
          · exact h
        constructor
        · intro y hy
          rcases mem_map_insert tl k v y hy with h | h
          · rw [h]
            rcases Bool.eq_false_or_eq_true (strLt k0.data k.data) with hk0 | hk0
            · exact hk0
            · exact absurd (show k = k0 from congrArg String.mk (strLt_conn _ _ h1' hk0)) h2
          · exact h0 y h
        · exact ih htl

theorem maps_lookup_insert_self : ∀ (m : List (String × Nat)) (k : String) (v : Nat),
    maps_lookup (map_insert m k v) k = some v := by
  intro m k v
  induction m with
  | nil => simp [map_insert, maps_lookup]
  | cons hd tl ih =>
    obtain ⟨k0, v0⟩ := hd
    simp only [map_insert]
    by_cases h1 : strLt k.data k0.data
    · rw [if_pos h1]; simp [maps_lookup]
    · by_cases h2 : k = k0
      · rw [if_neg h1, if_pos h2]; simp [maps_lookup]
      · rw [if_neg h1, if_neg h2]
        simp only [maps_lookup]
        rw [if_neg (fun hh => h2 hh.symm), ih]

theorem maps_lookup_insert_ne : ∀ (m : List (String × Nat)) (k p : String) (v : Nat),
    p ≠ k → maps_lookup (map_insert m k v) p = maps_lookup m p := by
  intro m k p v hpk
  induction m with
  | nil =>
    simp only [map_insert, maps_lookup]
    rw [if_neg (fun hh => hpk hh.symm)]
  | cons hd tl ih =>
    obtain ⟨k0, v0⟩ := hd
    simp only [map_insert]
    by_cases h1 : strLt k.data k0.data
    · rw [if_pos h1]
      simp only [maps_lookup]
      rw [if_neg (fun hh => hpk hh.symm)]
    · by_cases h2 : k = k0
      · rw [if_neg h1, if_pos h2]
        simp only [maps_lookup]
        rw [if_neg (fun hh => hpk hh.symm), if_neg (fun hh : k0 = p => hpk (h2 ▸ hh.symm))]
      · rw [if_neg h1, if_neg h2]
        simp only [maps_lookup, ih]

theorem scan_maps_true_eq_foldl : ∀ (rows : List maps_row) (acc : List (String × Nat)),
    scan_maps true acc (rows.map some)
      = rows.foldl
          (fun acc r => if r.is_candidate then map_insert acc r.path r.base else acc) acc := by
  intro rows
  induction rows with
  | nil => intro acc; rfl
  | cons r rest ih =>
    intro acc
    simp only [List.map_cons, scan_maps, Bool.not_true, Bool.false_and, Bool.false_eq_true,
      if_neg (by simp : ¬ (false = true)), List.foldl_cons]
    exact ih _

theorem foldl_maps_lookup : ∀ (rows : List maps_row) (acc : List (String × Nat)) (p : String),
    maps_lookup
      (rows.foldl
        (fun acc r => if r.is_candidate then map_insert acc r.path r.base else acc) acc) p
      = (last_candidate_base rows p).or (maps_lookup acc p) := by
  intro rows
  induction rows with
  | nil => intro acc p; simp [last_candidate_base]
  | cons r rest ih =>
    intro acc p
    simp only [List.foldl_cons]
    rw [ih]
    have hlast : last_candidate_base (r :: rest) p
        = (last_candidate_base rest p).or
            (if r.is_candidate ∧ r.path = p then some r.base else none) := by
      simp only [last_candidate_base, List.filter_cons]
      by_cases hc : r.is_candidate
      · rw [if_pos hc]
        simp only [List.reverse_cons, List.find?_append, hc, true_and]
        cases hfind : List.find? (fun rr => decide (rr.path = p))
            (List.filter maps_row.is_candidate rest).reverse with
        | some x => simp [Option.or]
        | none =>
          by_cases hp : r.path = p
          · simp [List.find?, hp]
          · simp [List.find?, hp]
      · rw [if_neg hc]
        simp [hc]
    rw [hlast, Option.or_assoc]
    congr 1
    by_cases hc : r.is_candidate
    · rw [if_pos hc]
      by_cases hp : r.path = p
      · rw [if_pos ⟨hc, hp⟩, ← hp, maps_lookup_insert_self]
        simp [Option.or]
      · rw [if_neg (fun hh => hp hh.2), maps_lookup_insert_ne _ _ _ _ (fun hh => hp hh.symm)]
        simp [Option.or]
    · rw [if_neg hc, if_neg (fun hh => absurd hh.1 (by simpa using hc))]
      simp [Option.or]

theorem foldl_insert_sorted : ∀ (rows : List maps_row) (acc : List (String × Nat)),
    acc.Pairwise (fun x y => strLt x.1.data y.1.data = true) →
    (rows.foldl
      (fun acc r => if r.is_candidate then map_insert acc r.path r.base else acc)
      acc).Pairwise (fun x y => strLt x.1.data y.1.data = true) := by
  intro rows
  induction rows with
  | nil => intro acc h; exact h
  | cons r rest ih =>
    intro acc h
    simp only [List.foldl_cons]
    apply ih
    by_cases hc : r.is_candidate
    · rw [if_pos hc]; exact map_insert_sorted _ _ _ h
    · rw [if_neg hc]; exact h

/-- C8, counterexample: the enumerator's result is a `std::map<string,
uintptr_t>` — iterated in sorted path order, not insertion order, and
`result[path] = base` overwrites, so a duplicate path keeps its *last* base.
With rows `/b ↦ 1`, `/a ↦ 3`, `/b ↦ 5` the result is `[(/a, 3), (/b, 5)]`,
not the claimed `[(/b, 1), (/a, 3)]`. -/
theorem c8_counterexample :
    get_loaded_files (some [some ⟨1, 2, ['r', '-', 'x', 'p'], 0, "/b"⟩,
                            some ⟨3, 4, ['r', '-', 'x', 'p'], 0, "/a"⟩,
                            some ⟨5, 6, ['r', '-', 'x', 'p'], 0, "/b"⟩]) true
        = .ok [("/a", 3), ("/b", 5)]
    ∧ get_loaded_files (some [some ⟨1, 2, ['r', '-', 'x', 'p'], 0, "/b"⟩,
                              some ⟨3, 4, ['r', '-', 'x', 'p'], 0, "/a"⟩,
                              some ⟨5, 6, ['r', '-', 'x', 'p'], 0, "/b"⟩]) true
        ≠ .ok [("/b", 1), ("/a", 3)] := by
  constructor
  · rfl
  · intro h
    exact absurd (Except.ok.inj h) (by decide)

/-- C8, amended: for a fully parsed mapping table (with libraries included),
the enumerator returns the candidate modules sorted lexicographically by
path, and a path that appears in several candidate rows retains the load base
of its *last* occurrence. -/
theorem c8_amended (rows : List maps_row) :
    ∃ l, get_loaded_files (some (rows.map some)) true = .ok l
      ∧ l.Pairwise (fun x y => strLt x.1.data y.1.data = true)
      ∧ ∀ p, maps_lookup l p = last_candidate_base rows p := by
  refine ⟨scan_maps true [] (rows.map some), rfl, ?_, ?_⟩
  · rw [scan_maps_true_eq_foldl]
    exact foldl_insert_sorted rows [] (List.Pairwise.nil)
  · intro p
    rw [scan_maps_true_eq_foldl, foldl_maps_lookup]
    simp [maps_lookup, Option.or_none]

/-! ## Theorems: address lookup after insertions (C1) -/

/-- A sequence of `add_range` insertions, in order. -/
def add_all (m : memory_map) (inserts : List (String × Nat × interval)) : memory_map :=
  inserts.foldl (fun m t => m.add_range t.1 t.2.1 t.2.2) m

/-- The range entry an insertion produces when it is not dropped. -/
def entryOf (t : String × Nat × interval) : interval × line :=
  (t.2.2, ⟨normalizePath t.1, t.2.1⟩)

theorem add_range_ranges_cases (m : memory_map) (fn : String) (n : Nat) (r : interval) :
    (m.add_range fn n r).ranges = m.ranges
    ∨ (m.add_range fn n r).ranges = m.ranges ++ [(r, ⟨normalizePath fn, n⟩)] := by
  simp only [memory_map.add_range]
  by_cases h : m.ranges.any (fun p => p.1.overlaps r)
  · rw [if_pos h]; exact Or.inl rfl
  · rw [if_neg h]; exact Or.inr rfl

theorem add_all_ranges_mem : ∀ (inserts : List (String × Nat × interval)) (m : memory_map),
    ∀ e ∈ (add_all m inserts).ranges, e ∈ m.ranges ∨ ∃ t ∈ inserts, e = entryOf t := by
  intro inserts
  induction inserts with
  | nil => intro m e he; exact Or.inl he
  | cons t rest ih =>
    intro m e he
    have he' := ih (m.add_range t.1 t.2.1 t.2.2) e he
    rcases he' with h | ⟨u, hu, he⟩
    · rcases add_range_ranges_cases m t.1 t.2.1 t.2.2 with hc | hc
      · rw [hc] at h; exact Or.inl h
      · rw [hc] at h
        rcases List.mem_append.mp h with h | h
        · exact Or.inl h
        · refine Or.inr ⟨t, List.mem_cons_self _ _, ?_⟩
          simpa [entryOf] using List.mem_singleton.mp h
    · exact Or.inr ⟨u, List.mem_cons_of_mem _ hu, he⟩

theorem contains_both_overlaps (i j : interval) (a : Nat)
    (hi : i.contains a = true) (hj : j.contains a = true) : i.overlaps j = true := by
  simp only [interval.contains, interval.overlaps, Bool.and_eq_true, decide_eq_true_eq] at *
  omega

theorem overlaps_comm (i j : interval) : i.overlaps j = j.overlaps i := by
  simp only [interval.overlaps]
  by_cases h1 : j.base < i.limit <;> by_cases h2 : i.base < j.limit <;> simp [h1, h2]

theorem add_all_ranges_of_disjoint :
    ∀ (inserts : List (String × Nat × interval)) (m : memory_map),
    inserts.Pairwise (fun s t => s.2.2.overlaps t.2.2 = false) →
    (∀ e ∈ m.ranges, ∀ t ∈ inserts, e.1.overlaps t.2.2 = false) →
    (add_all m inserts).ranges = m.ranges ++ inserts.map entryOf := by
  intro inserts
  induction inserts with
  | nil => intro m _ _; simp [add_all]
  | cons t rest ih =>
    intro m hp hm
    rw [List.pairwise_cons] at hp
    obtain ⟨ht, hrest⟩ := hp
    have hstep : (m.add_range t.1 t.2.1 t.2.2).ranges = m.ranges ++ [entryOf t] := by
      simp only [memory_map.add_range]
      have hany : m.ranges.any (fun p => p.1.overlaps t.2.2) = false := by
        rw [List.any_eq_false]
        intro e he
        simp [hm e he t (List.mem_cons_self _ _)]
      rw [if_neg (by simp [hany])]
      simp [entryOf]
    have hnext : ∀ e ∈ (m.add_range t.1 t.2.1 t.2.2).ranges,
        ∀ u ∈ rest, e.1.overlaps u.2.2 = false := by
      intro e he u hu
      rw [hstep] at he
      rcases List.mem_append.mp he with h | h
      · exact hm e h u (List.mem_cons_of_mem _ hu)
      · rw [List.mem_singleton.mp h]
        exact ht u hu
    calc (add_all m (t :: rest)).ranges
        = (add_all (m.add_range t.1 t.2.1 t.2.2) rest).ranges := rfl
      _ = (m.add_range t.1 t.2.1 t.2.2).ranges ++ rest.map entryOf := ih _ hrest hnext
      _ = m.ranges ++ (t :: rest).map entryOf := by rw [hstep]; simp

theorem find?_unique {α : Type} (p : α → Bool) :
    ∀ (l : List α) (t : α), t ∈ l → p t = true →
    (∀ s ∈ l, p s = true → s = t) → l.find? p = some t := by
  intro l
  induction l with
  | nil => intro t ht _ _; cases ht
  | cons h rest ih =>
    intro t ht hpt huniq
    by_cases hh : p h
    · rw [List.find?_cons_of_pos _ hh, huniq h (List.mem_cons_self _ _) hh]
    · rw [List.find?_cons_of_neg _ hh]
      rcases List.mem_cons.mp ht with he | he
      · rw [he] at hpt; exact absurd hpt (by simpa using hh)
      · exact ih t he hpt (fun s hs hps => huniq s (List.mem_cons_of_mem _ hs) hps)

/-- C1, counterexample: overlapping insertions break the claim.  After
inserting `[0,10) ↦ a.c:1` and then `[2,8) ↦ b.c:2`, the address `5` lies
strictly inside the second inserted interval, yet the lookup returns `a.c:1`
(the colliding second emplace was a no-op), not the Line the interval was
inserted with. -/
theorem c1_counterexample :
    (interval.mk 2 8).contains 5 = true
    ∧ ((memory_map.empty.add_range "a.c" 1 ⟨0, 10⟩).add_range "b.c" 2
        ⟨2, 8⟩).find_line_addr 5 = some ⟨"a.c", 1⟩
    ∧ some (line.mk "a.c" 1) ≠ some ⟨"b.c", 2⟩ := by decide

/-- C1, amended: if an address lies outside every inserted interval,
`find_line` returns nothing; and when the inserted intervals are pairwise
non-overlapping, an address lying inside one of them resolves to exactly the
Line it was inserted with.  (With overlapping insertions the later colliding
insert is dropped — first write wins — as the counterexample shows.) -/
theorem c1_amended (inserts : List (String × Nat × interval)) (a : Nat) :
    ((∀ t ∈ inserts, t.2.2.contains a = false) →
      (add_all memory_map.empty inserts).find_line_addr a = none)
    ∧ (inserts.Pairwise (fun s t => s.2.2.overlaps t.2.2 = false) →
       ∀ t ∈ inserts, t.2.2.contains a = true →
       (add_all memory_map.empty inserts).find_line_addr a
         = some ⟨normalizePath t.1, t.2.1⟩) := by
  constructor
  · intro hout
    simp only [memory_map.find_line_addr]
    have hnone : (add_all memory_map.empty inserts).ranges.find?
        (fun p => p.1.contains a) = none := by
      rw [List.find?_eq_none]
      intro e he
      rcases add_all_ranges_mem inserts memory_map.empty e he with h | ⟨t, ht, he'⟩
      · cases h
      · rw [he']
        simp [entryOf, hout t ht]
    rw [hnone]
    rfl
  · intro hdisj t ht hc
    simp only [memory_map.find_line_addr]
    rw [add_all_ranges_of_disjoint inserts memory_map.empty hdisj
        (by intro e he; cases he)]
    have hmem : entryOf t ∈ memory_map.empty.ranges ++ List.map entryOf inserts :=
      List.mem_append_right _ (List.mem_map_of_mem entryOf ht)
    have hpt : (fun p : interval × line => p.1.contains a) (entryOf t) = true := by
      simpa [entryOf] using hc
    have huniq : ∀ s ∈ memory_map.empty.ranges ++ List.map entryOf inserts,
        (fun p : interval × line => p.1.contains a) s = true → s = entryOf t := by
      intro s hs hps
      rcases List.mem_append.mp hs with h | h
      · cases h
      · rcases List.mem_map.mp h with ⟨u, hu, hs'⟩
        by_cases huv : u = t
        · rw [← hs', huv]
        · exfalso
          have hsa : u.2.2.contains a = true := by
            rw [← hs'] at hps
            simpa [entryOf] using hps
          have hover := contains_both_overlaps u.2.2 t.2.2 a hsa hc
          have hsymm : Symmetric (fun s t : String × Nat × interval =>
              s.2.2.overlaps t.2.2 = false) := by
            intro x y h
            rw [overlaps_comm]
            exact h
          have hfalse := (List.Pairwise.forall hsymm hdisj) hu ht huv
          rw [hfalse] at hover
          cases hover
    rw [find?_unique _ _ (entryOf t) hmem hpt huniq]
    rfl

/-- C1, witness: two disjoint insertions; an address inside the first
resolves to its Line, an address outside both resolves to nothing. -/
theorem c1_witness :
    (add_all memory_map.empty
        [("/src/a.c", 10, ⟨4096, 4128⟩), ("/src/b.c", 20, ⟨4128, 4160⟩)]).find_line_addr 4100
      = some ⟨normalizePath "/src/a.c", 10⟩
    ∧ (add_all memory_map.empty
        [("/src/a.c", 10, ⟨4096, 4128⟩), ("/src/b.c", 20, ⟨4128, 4160⟩)]).find_line_addr 5000
      = none :=
  ⟨(c1_amended [("/src/a.c", 10, ⟨4096, 4128⟩), ("/src/b.c", 20, ⟨4128, 4160⟩)] 4100).2
      (by decide) ("/src/a.c", 10, ⟨4096, 4128⟩) (by decide) (by decide),
   (c1_amended [("/src/a.c", 10, ⟨4096, 4128⟩), ("/src/b.c", 20, ⟨4128, 4160⟩)] 5000).1
      (by decide)⟩

/-! ## Theorems: attribute resolution for inlined subroutines (C4) -/

/-- `find_attribute` returns the attribute of the *first* node in the
resolution order "node itself, then the abstract-origin chain, then the
specification chain" that bears the attribute. -/
theorem find_attribute_eq_chain (d : dwdie) (attr : dwat) :
    find_attribute d attr
      = ((resolutionChain d).find? (fun n => (n.selfAttr attr).isSome)).bind
          (fun n => n.selfAttr attr) := by
  induction d with
  | invalid => rfl
  | node tag attrs origin spec iho ihs =>
    simp only [find_attribute, resolutionChain]
    cases hself : lookupAttr attrs attr with
    | some v =>
      rw [List.find?_cons_of_pos _ (by simp [dwdie.selfAttr, hself])]
      simp [dwdie.selfAttr, hself]
    | none =>
      rw [List.find?_cons_of_neg _ (by simp [dwdie.selfAttr, hself]), List.find?_append]
      cases hfo : (resolutionChain origin).find? (fun n => (n.selfAttr attr).isSome) with
      | some n =>
        rw [iho, hfo]
        have hs := List.find?_some hfo
        cases hn : n.selfAttr attr with
        | some v => simp [Option.or, hn]
        | none => rw [hn] at hs; simp at hs
      | none =>
        rw [iho, hfo, ihs]
        simp [Option.or]

/-- The concrete die of the C4 counterexample: an inlined-subroutine node
carrying its own `call_line` but whose `call_file` sits only on its
abstract-origin node. -/
def c4_die : dwdie :=
  .node .inlined_subroutine [(.call_line, .num 7)]
    (.node .other [(.call_file, .num 0)] .invalid .invalid) .invalid

/-- C4, counterexample: the claim says `call_file` is resolved through the
node-then-abstract-origin-then-specification chain.  The chain resolves
`call_file` for `c4_die` (to file index 0, i.e. `/src/x.c`), but
`process_inlines` reads `call_file` from the node itself only and comes back
empty. -/
theorem c4_counterexample :
    (process_inline_attrs c4_die ["/src/x.c"] true).call_file = ""
    ∧ find_attribute c4_die .call_file = some (.num 0)
    ∧ (["/src/x.c"] : List String).getD 0 "" = "/src/x.c" := by decide

/-- C4, amended: for a node tagged as an inlined subroutine, `name`,
`decl_file` and `decl_line` are each resolved by taking the first
attribute-bearing node of the resolution order "the node itself, then the
abstract-origin chain, then the specification chain"; `call_file` and
`call_line`, however, are read from the node's own attributes only, with no
indirection. -/
theorem c4_amended (attrs : List (dwat × dwvalue)) (origin spec : dwdie)
    (table : List String) (tv : Bool) :
    (process_inline_attrs (.node .inlined_subroutine attrs origin spec) table tv).name
        = (match ((resolutionChain (.node .inlined_subroutine attrs origin spec)).find?
              (fun n => (n.selfAttr .name).isSome)).bind (fun n => n.selfAttr .name) with
           | some (.str s) => s
           | _ => "")
    ∧ (process_inline_attrs (.node .inlined_subroutine attrs origin spec) table tv).decl_file
        = (match ((resolutionChain (.node .inlined_subroutine attrs origin spec)).find?
              (fun n => (n.selfAttr .decl_file).isSome)).bind
                (fun n => n.selfAttr .decl_file) with
           | some (.num i) => if tv then table.getD i "" else ""
           | _ => "")
    ∧ (process_inline_attrs (.node .inlined_subroutine attrs origin spec) table tv).decl_line
        = (match ((resolutionChain (.node .inlined_subroutine attrs origin spec)).find?
              (fun n => (n.selfAttr .decl_line).isSome)).bind
                (fun n => n.selfAttr .decl_line) with
           | some (.num n) => n
           | _ => 0)
    ∧ (process_inline_attrs (.node .inlined_subroutine attrs origin spec) table tv).call_file
        = (match lookupAttr attrs .call_file with
           | some (.num i) => if tv then table.getD i "" else ""
           | _ => "")
    ∧ (process_inline_attrs (.node .inlined_subroutine attrs origin spec) table tv).call_line
        = (match lookupAttr attrs .call_line with
           | some (.num n) => n
           | _ => 0) := by
  refine ⟨?_, ?_, ?_, rfl, rfl⟩
  · rw [← find_attribute_eq_chain]; rfl
  · rw [← find_attribute_eq_chain]; rfl
  · rw [← find_attribute_eq_chain]; rfl

/-! ## Normalization is idempotent

`process_file` stores already-normalized paths, and both `in_scope` and the
File-key computation normalize again; idempotence of `normalizePath` makes
those re-normalizations the identity.
-/

theorem splitSlash_ne_nil : ∀ cs : List Char, splitSlash cs ≠ [] := by
  intro cs
  induction cs with
  | nil => simp [splitSlash]
  | cons c rest ih =>
    simp only [splitSlash]
    by_cases hc : c = '/'
    · simp [hc]
    · rw [if_neg hc]
      cases hsp : splitSlash rest with
      | nil => simp
      | cons s ss => simp

theorem splitSlash_no_slash : ∀ (cs : List Char), ∀ s ∈ splitSlash cs, '/' ∉ s := by
  intro cs
  induction cs with
  | nil =>
    intro s hs
    simp only [splitSlash, List.mem_singleton] at hs
    simp [hs]
  | cons c rest ih =>
    intro s hs
    simp only [splitSlash] at hs
    by_cases hc : c = '/'
    · rw [if_pos hc] at hs
      rcases List.mem_cons.mp hs with h | h
      · simp [h]
      · exact ih s h
    · rw [if_neg hc] at hs
      cases hsp : splitSlash rest with
      | nil => exact absurd hsp (splitSlash_ne_nil rest)
      | cons s0 ss =>
        rw [hsp] at hs
        rcases List.mem_cons.mp hs with h | h
        · rw [h]
          intro hmem
          rcases List.mem_cons.mp hmem with h' | h'
          · exact hc h'.symm
          · exact ih s0 (hsp ▸ List.mem_cons_self _ _) h'
        · exact ih s (hsp ▸ List.mem_cons_of_mem _ h)

theorem splitSlash_of_no_slash : ∀ s : List Char, '/' ∉ s → splitSlash s = [s] := by
  intro s
  induction s with
  | nil => intro _; rfl
  | cons c rest ih =>
    intro h
    have hc : c ≠ '/' := fun hh => h (hh ▸ List.mem_cons_self _ _)
    have hrest : '/' ∉ rest := fun hh => h (List.mem_cons_of_mem _ hh)
    simp only [splitSlash, if_neg hc, ih hrest]

theorem splitSlash_append : ∀ (s cs : List Char), '/' ∉ s →
    splitSlash (s ++ '/' :: cs) = s :: splitSlash cs := by
  intro s
  induction s with
  | nil => intro cs _; simp [splitSlash]
  | cons c rest ih =>
    intro cs h
    have hc : c ≠ '/' := fun hh => h (hh ▸ List.mem_cons_self _ _)
    have hrest : '/' ∉ rest := fun hh => h (List.mem_cons_of_mem _ hh)
    show splitSlash (c :: (rest ++ '/' :: cs)) = _
    simp only [splitSlash, if_neg hc]
    rw [ih cs hrest]

theorem splitSlash_joinSlash : ∀ segs : List (List Char), segs ≠ [] →
    (∀ s ∈ segs, '/' ∉ s) → splitSlash (joinSlash segs) = segs := by
  intro segs
  induction segs with
  | nil => intro h _; exact absurd rfl h
  | cons s ss ih =>
    intro _ hm
    cases ss with
    | nil => exact splitSlash_of_no_slash s (hm s (List.mem_cons_self _ _))
    | cons s2 ss2 =>
      show splitSlash (s ++ '/' :: joinSlash (s2 :: ss2)) = _
      rw [splitSlash_append s _ (hm s (List.mem_cons_self _ _))]
      rw [ih (by simp) (fun t ht => hm t (List.mem_cons_of_mem _ ht))]

/-- The shape invariant of the `normStep` stack: every kept segment is
nonempty and not `"."`, and `".."` segments sit at the bottom of the stack. -/
def stackOk : List (List Char) → Prop
  | [] => True
  | s :: rest =>
    s ≠ [] ∧ s ≠ ['.'] ∧ (s = ['.', '.'] → ∀ t ∈ rest, t = ['.', '.']) ∧ stackOk rest

theorem stackOk_normStep (st : List (List Char)) (seg : List Char) (h : stackOk st) :
    stackOk (normStep st seg) := by
  by_cases h1 : seg = [] ∨ seg = ['.']
  · simp only [normStep]
    rw [if_pos h1]; exact h
  · by_cases h2 : seg = ['.', '.']
    · push_neg at h1
      cases st with
      | nil =>
        simp only [normStep]
        rw [if_neg (by push_neg; exact h1), if_pos h2]
        exact ⟨h1.1, h1.2, fun _ t ht => absurd ht (List.not_mem_nil t), trivial⟩
      | cons top rest =>
        simp only [normStep]
        rw [if_neg (by push_neg; exact h1), if_pos h2]
        by_cases h3 : top = ['.', '.']
        · rw [if_pos h3]
          refine ⟨h1.1, h1.2, ?_, h⟩
          intro _ t ht
          rcases List.mem_cons.mp ht with h' | h'
          · rw [h', h3]
          · exact h.2.2.1 h3 t h'
        · rw [if_neg h3]
          exact h.2.2.2
    · push_neg at h1
      simp only [normStep]
      rw [if_neg (by push_neg; exact h1), if_neg h2]
      exact ⟨h1.1, h1.2, fun hcontra => absurd hcontra h2, h⟩

theorem stackOk_foldl : ∀ (segs : List (List Char)) (st : List (List Char)),
    stackOk st → stackOk (List.foldl normStep st segs) := by
  intro segs
  induction segs with
  | nil => intro st h; exact h
  | cons s rest ih => intro st h; exact ih _ (stackOk_normStep st s h)

theorem mem_normStep (st : List (List Char)) (seg : List Char) :
    ∀ x ∈ normStep st seg, x ∈ st ∨ x = seg := by
  intro x hx
  by_cases h1 : seg = [] ∨ seg = ['.']
  · simp only [normStep, if_pos h1] at hx
    exact Or.inl hx
  · by_cases h2 : seg = ['.', '.']
    · cases st with
      | nil =>
        simp only [normStep, if_neg h1, if_pos h2] at hx
        exact Or.inr (List.mem_singleton.mp hx)
      | cons top rest =>
        simp only [normStep, if_neg h1, if_pos h2] at hx
        by_cases h3 : top = ['.', '.']
        · rw [if_pos h3] at hx
          rcases List.mem_cons.mp hx with h | h
          · exact Or.inr h
          · exact Or.inl h
        · rw [if_neg h3] at hx
          exact Or.inl (List.mem_cons_of_mem _ hx)
    · simp only [normStep, if_neg h1, if_neg h2] at hx
      rcases List.mem_cons.mp hx with h | h
      · exact Or.inr h
      · exact Or.inl h

theorem mem_foldl_normStep : ∀ (segs : List (List Char)) (st : List (List Char)),
    ∀ x ∈ List.foldl normStep st segs, x ∈ st ∨ x ∈ segs := by
  intro segs
  induction segs with
  | nil => intro st x hx; exact Or.inl hx
  | cons s rest ih =>
    intro st x hx
    rcases ih (normStep st s) x hx with h | h
    · rcases mem_normStep st s x h with h' | h'
      · exact Or.inl h'
      · exact Or.inr (h' ▸ List.mem_cons_self _ _)
    · exact Or.inr (List.mem_cons_of_mem _ h)

theorem stackOk_elements : ∀ st : List (List Char), stackOk st →
    ∀ s ∈ st, s ≠ [] ∧ s ≠ ['.'] := by
  intro st
  induction st with
  | nil => intro _ s hs; cases hs
  | cons top rest ih =>
    intro h s hs
    rcases List.mem_cons.mp hs with h' | h'
    · rw [h']; exact ⟨h.1, h.2.1⟩
    · exact ih h.2.2.2 s h'

theorem foldl_normStep_reverse : ∀ st : List (List Char), stackOk st →
    List.foldl normStep [] st.reverse = st := by
  intro st
  induction st with
  | nil => intro _; rfl
  | cons top rest ih =>
    intro h
    rw [List.reverse_cons, List.foldl_append, ih h.2.2.2]
    show normStep rest top = top :: rest
    by_cases h5 : top = ['.', '.']
    · cases rest with
      | nil =>
        simp only [normStep]
        rw [if_neg (by push_neg; exact ⟨h.1, h.2.1⟩), if_pos h5, h5]
      | cons r rs =>
        have hr : r = ['.', '.'] := h.2.2.1 h5 r (List.mem_cons_self _ _)
        simp only [normStep]
        rw [if_neg (by push_neg; exact ⟨h.1, h.2.1⟩), if_pos h5, if_pos hr]
    · cases rest with
      | nil =>
        simp only [normStep]
        rw [if_neg (by push_neg; exact ⟨h.1, h.2.1⟩), if_neg h5]
      | cons r rs =>
        simp only [normStep]
        rw [if_neg (by push_neg; exact ⟨h.1, h.2.1⟩), if_neg h5]

theorem joinSlash_ne_nil : ∀ segs : List (List Char), segs ≠ [] →
    (∀ s ∈ segs, s ≠ []) → joinSlash segs ≠ [] := by
  intro segs
  cases segs with
  | nil => intro h _; exact absurd rfl h
  | cons s ss =>
    intro _ hm
    cases ss with
    | nil => exact hm s (List.mem_cons_self _ _)
    | cons s2 ss2 => simp [joinSlash]

theorem joinSlash_head : ∀ (s : List Char) (ss : List (List Char)), s ≠ [] →
    (joinSlash (s :: ss)).head? = s.head? := by
  intro s ss hs
  cases ss with
  | nil => rfl
  | cons s2 ss2 =>
    show (s ++ '/' :: joinSlash (s2 :: ss2)).head? = s.head?
    cases s with
    | nil => exact absurd rfl hs
    | cons c cs => rfl

theorem normalizePath_idem (p : String) :
    normalizePath (normalizePath p) = normalizePath p := by
  by_cases h0 : p.data = []
  · have h1 : normalizePath p = "" := by simp [normalizePath, h0]
    rw [h1]
    decide
  · have hok : stackOk ((splitSlash p.data).foldl normStep []) :=
      stackOk_foldl _ [] trivial
    have hmem : ∀ s ∈ ((splitSlash p.data).foldl normStep []).reverse, '/' ∉ s := by
      intro s hs
      rcases mem_foldl_normStep _ [] s (List.mem_reverse.mp hs) with h | h
      · cases h
      · exact splitSlash_no_slash p.data s h
    have hel : ∀ s ∈ ((splitSlash p.data).foldl normStep []).reverse, s ≠ [] ∧ s ≠ ['.'] :=
      fun s hs => stackOk_elements _ hok s (List.mem_reverse.mp hs)
    have hfold : List.foldl normStep []
        (((splitSlash p.data).foldl normStep []).reverse).reverse.reverse
        = (splitSlash p.data).foldl normStep [] := by
      rw [List.reverse_reverse]
      exact foldl_normStep_reverse _ hok
    rw [List.reverse_reverse] at hfold
    by_cases habs : p.data.head? = some '/'
    · have h1 : normalizePath p
          = ⟨'/' :: joinSlash (((splitSlash p.data).foldl normStep []).reverse)⟩ := by
        simp [normalizePath, h0, habs]
      rw [h1]
      have hsplit : splitSlash
          ('/' :: joinSlash (((splitSlash p.data).foldl normStep []).reverse))
          = [] :: splitSlash (joinSlash (((splitSlash p.data).foldl normStep []).reverse)) := by
        simp [splitSlash]
      have hcore : ((splitSlash
          (('/' :: joinSlash (((splitSlash p.data).foldl normStep []).reverse))))
            |>.foldl normStep []).reverse
          = ((splitSlash p.data).foldl normStep []).reverse := by
        rw [hsplit, List.foldl_cons]
        show (List.foldl normStep []
          (splitSlash (joinSlash (((splitSlash p.data).foldl normStep []).reverse)))).reverse = _
        cases hsegnil : ((splitSlash p.data).foldl normStep []).reverse with
        | nil => simp [joinSlash, splitSlash, normStep]
        | cons s ss =>
          rw [← hsegnil, splitSlash_joinSlash _ (by rw [hsegnil]; simp) hmem, hfold, hsegnil]
      show normalizePath
          ⟨'/' :: joinSlash (((splitSlash p.data).foldl normStep []).reverse)⟩ = _
      simp only [normalizePath, hcore]
      rw [if_neg (by simp), if_pos (by simp)]
    · have hrel : ¬ p.data.head? = some '/' := habs
      by_cases hnil : ((splitSlash p.data).foldl normStep []).reverse = []
      · have h1 : normalizePath p = "." := by
          simp [normalizePath, h0, habs, hnil]
        rw [h1]
        decide
      · have h1 : normalizePath p
            = ⟨joinSlash (((splitSlash p.data).foldl normStep []).reverse)⟩ := by
          simp [normalizePath, h0, habs, hnil]
        rw [h1]
        obtain ⟨s, ss, hcons⟩ : ∃ s ss,
            ((splitSlash p.data).foldl normStep []).reverse = s :: ss := by
          cases hc : ((splitSlash p.data).foldl normStep []).reverse with
          | nil => exact absurd hc hnil
          | cons s ss => exact ⟨s, ss, rfl⟩
        have hsne : s ≠ [] := (hel s (hcons ▸ List.mem_cons_self _ _)).1
        have hjne : joinSlash (((splitSlash p.data).foldl normStep []).reverse) ≠ [] := by
          rw [hcons]
          exact joinSlash_ne_nil _ (by simp)
            (fun t ht => (hel t (hcons ▸ ht)).1)
        have hjhead : (joinSlash (((splitSlash p.data).foldl normStep []).reverse)).head?
            ≠ some '/' := by
          rw [hcons, joinSlash_head s ss hsne]
          cases s with
          | nil => exact absurd rfl hsne
          | cons c cs =>
            have : c ≠ '/' := fun hh =>
              hmem (c :: cs) (hcons ▸ List.mem_cons_self _ _) (hh ▸ List.mem_cons_self _ _)
            simpa using this
        have hcore : ((splitSlash
            (joinSlash (((splitSlash p.data).foldl normStep []).reverse)))
              |>.foldl normStep []).reverse
            = ((splitSlash p.data).foldl normStep []).reverse := by
          rw [splitSlash_joinSlash _ hnil hmem, hfold]
        show normalizePath ⟨joinSlash (((splitSlash p.data).foldl normStep []).reverse)⟩ = _
        simp only [normalizePath, hcore]
        rw [if_neg (by simpa using hjne), if_neg (by simpa using hjhead), if_neg hnil]

/-! ## Theorems: line table walker (C5) -/

theorem walk_rows_sound (scope : List String) (load_address : Nat) :
    ∀ (rows : List line_row) (st : walk_state) (e : String × Nat × interval),
    e ∈ walk_rows scope load_address st rows →
    (∃ row0, rows.head? = some row0 ∧ st.prev_address ≠ 0
      ∧ in_scope st.prev_filename scope = true
      ∧ e = (st.prev_filename, st.prev_line,
             ⟨st.prev_address + load_address, row0.address + load_address⟩))
    ∨ (∃ j rj rj1, rows[j]? = some rj ∧ rows[j + 1]? = some rj1
        ∧ rj.end_sequence = false ∧ rj.address ≠ 0
        ∧ in_scope (normalizePath rj.file) scope = true
        ∧ e = (normalizePath rj.file, rj.line,
               ⟨rj.address + load_address, rj1.address + load_address⟩)) := by
  intro rows
  induction rows with
  | nil => intro st e he; cases he
  | cons r rest ih =>
    intro st e he
    simp only [walk_rows] at he
    rcases List.mem_append.mp he with h | h
    · left
      simp only [walk_emit] at h
      by_cases hcond : (st.prev_address != 0 && in_scope st.prev_filename scope) = true
      · rw [if_pos hcond] at h
        rw [Bool.and_eq_true] at hcond
        refine ⟨r, rfl, by simpa using hcond.1, hcond.2, ?_⟩
        simpa using h
      · rw [if_neg hcond] at h
        cases h
    · rcases ih (walk_next st r) e h with hleft | hright
      · obtain ⟨row0, hhead, hpa, hsc, he'⟩ := hleft
        by_cases hes : r.end_sequence
        · exact absurd (by simp [walk_next, hes] : (walk_next st r).prev_address = 0) hpa
        · right
          have hst : walk_next st r = ⟨normalizePath r.file, r.line, r.address⟩ := by
            simp [walk_next, hes]
          refine ⟨0, r, row0, by simp, ?_, by simpa using hes, ?_, ?_, ?_⟩
          · rw [List.getElem?_cons_succ, ← List.head?_eq_getElem?]
            exact hhead
          · rw [hst] at hpa
            exact hpa
          · rw [hst] at hsc
            exact hsc
          · rw [hst] at he'
            exact he'
      · obtain ⟨j, rj, rj1, hj, hj1, hes, hpa, hsc, he'⟩ := hright
        right
        exact ⟨j + 1, rj, rj1, by simpa using hj, by simpa using hj1, hes, hpa, hsc, he'⟩

/-- C5: every interval the line-table walker emits comes from a previous
non-terminal row `rj` (with nonzero address) followed by a row `rj1`; the
previous row's normalized source path starts with at least one scope prefix,
and the entry is attributed to the previous row's (normalized file, line),
spanning from the previous row's address to the current row's address, both
shifted by the load address.  In particular a row whose previous row is out
of scope emits nothing. -/
theorem c5_walker (scope : List String) (load_address : Nat) (rows : List line_row)
    (e : String × Nat × interval)
    (he : e ∈ walk_rows scope load_address walk_init rows) :
    ∃ j rj rj1, rows[j]? = some rj ∧ rows[j + 1]? = some rj1
      ∧ rj.end_sequence = false ∧ rj.address ≠ 0
      ∧ (scope.any (fun s => s.data.isPrefixOf (normalizePath rj.file).data)) = true
      ∧ e = (normalizePath rj.file, rj.line,
             ⟨rj.address + load_address, rj1.address + load_address⟩) := by
  rcases walk_rows_sound scope load_address rows walk_init e he with h | h
  · obtain ⟨row0, _, hpa, _, _⟩ := h
    exact absurd rfl hpa
  · obtain ⟨j, rj, rj1, hj, hj1, hes, hpa, hsc, he'⟩ := h
    refine ⟨j, rj, rj1, hj, hj1, hes, hpa, ?_, he'⟩
    rw [← hsc]
    simp only [in_scope, normalizePath_idem]

/-- C5, witness: one in-scope row followed by a terminal row emits exactly
the interval between the two addresses shifted by the load base. -/
theorem c5_witness :
    ∃ j rj rj1,
      [line_row.mk 100 "/src/a.c" 10 false, line_row.mk 132 "/src/a.c" 11 true][j]? = some rj
      ∧ [line_row.mk 100 "/src/a.c" 10 false, line_row.mk 132 "/src/a.c" 11 true][j + 1]?
          = some rj1
      ∧ rj.end_sequence = false ∧ rj.address ≠ 0
      ∧ (["/src"].any (fun s => s.data.isPrefixOf (normalizePath rj.file).data)) = true
      ∧ ("/src/a.c", 10, interval.mk 4100 4132)
          = (normalizePath rj.file, rj.line,
             ⟨rj.address + 4000, rj1.address + 4000⟩) :=
  c5_walker ["/src"] 4000
    [line_row.mk 100 "/src/a.c" 10 false, line_row.mk 132 "/src/a.c" 11 true]
    ("/src/a.c", 10, ⟨4100, 4132⟩) (by decide)

/-! ## Theorems: debug image locator (C6) -/

/-- Whether a candidate path succeeds: it opens and the opened image has a
valid `.debug_info` section. -/
def try_ok (fs : String → Option elf_image) (p : String) : Bool :=
  match fs p with
  | some g => g.has_debug_info
  | none => false

/-- The candidate loop returns the image of the first successful candidate. -/
theorem try_search_paths_eq (fs : String → Option elf_image) :
    ∀ ps : List String, try_search_paths fs ps = (ps.find? (try_ok fs)).bind fs := by
  intro ps
  induction ps with
  | nil => rfl
  | cons p rest ih =>
    simp only [try_search_paths]
    cases hfs : fs p with
    | none =>
      show try_search_paths fs rest = _
      rw [List.find?_cons_of_neg _ (by simp [try_ok, hfs]), ih]
    | some g =>
      show (if g.has_debug_info = true then some g else try_search_paths fs rest) = _
      by_cases hdi : g.has_debug_info
      · rw [if_pos hdi, List.find?_cons_of_pos _ (by simp [try_ok, hfs, hdi])]
        simp [hfs]
      · rw [if_neg hdi, List.find?_cons_of_neg _ (by simp [try_ok, hfs, hdi]), ih]

/-- C6: when the resolved image opens but lacks a debug-info section, the
locator tries, in exactly this order, the build-id path
`/usr/lib/debug/.build-id/<2 hex>/<rest>.debug` (when the build id is
nonempty), then `<dir>/<link>`, `<dir>/.debug/<link>`,
`/usr/lib/debug<dir>/<link>` (when a `.gnu_debuglink` section exists); it
returns the image of the first candidate that opens with a debug-info
section (`List.find?` over the candidate list), and nothing when every
candidate fails. -/
theorem c6_locator (fs : String → Option elf_image) (canon : String → String)
    (path_env : List String) (fs_exists : String → Bool) (filename : String)
    (f : elf_image)
    (h1 : (get_full_path canon path_env fs_exists filename).data.length ≠ 0)
    (h2 : fs (get_full_path canon path_env fs_exists filename) = some f)
    (h3 : f.has_debug_info = false) :
    (locate_debug_executable fs canon path_env fs_exists filename
      = ((((if (find_build_id f).data.length > 0 then
              [⟨"/usr/lib/debug/.build-id/".data ++ (find_build_id f).data.take 2 ++ '/' ::
                ((find_build_id f).data.drop 2 ++ ".debug".data)⟩]
            else [])
          ++ (match f.debuglink with
              | some link_name =>
                [dirname (get_full_path canon path_env fs_exists filename) ++ "/" ++ link_name,
                 dirname (get_full_path canon path_env fs_exists filename)
                   ++ "/.debug/" ++ link_name,
                 "/usr/lib/debug" ++ dirname (get_full_path canon path_env fs_exists filename)
                   ++ "/" ++ link_name]
              | none => [])).find? (try_ok fs)).bind fs))
    ∧ ((∀ p ∈ debug_search_paths f (dirname (get_full_path canon path_env fs_exists filename)),
          try_ok fs p = false) →
        locate_debug_executable fs canon path_env fs_exists filename = none) := by
  have hloc : locate_debug_executable fs canon path_env fs_exists filename
      = try_search_paths fs
          (debug_search_paths f (dirname (get_full_path canon path_env fs_exists filename))) := by
    simp only [locate_debug_executable]
    rw [if_neg h1, h2]
    simp only [h3]
    rw [if_neg (by simp)]
  constructor
  · rw [hloc, try_search_paths_eq]
    rfl
  · intro hall
    rw [hloc, try_search_paths_eq, List.find?_eq_none.mpr (fun p hp => by simp [hall p hp])]
    rfl

/-- The stripped executable of the C6 witness: a build-id note (`abcd`), a
debug link, no `.debug_info`. -/
def c6_f : elf_image := ⟨[⟨true, [⟨3, [171, 205]⟩]⟩], false, some "app.debug"⟩

/-- The split debug file of the C6 witness. -/
def c6_g : elf_image := ⟨[], true, none⟩

/-- The filesystem of the C6 witness: the build-id candidate is absent, the
first debug-link candidate `/opt/bin/app.debug` holds the debug file. -/
def c6_fs : String → Option elf_image := fun s =>
  if s = "/opt/bin/app" then some c6_f
  else if s = "/opt/bin/app.debug" then some c6_g
  else none

/-- C6, witness: the build-id candidate fails to open, so the locator returns
the image of the first debug-link candidate. -/
theorem c6_witness :
    locate_debug_executable c6_fs id [] (fun _ => false) "/opt/bin/app" = some c6_g := by
  have h := (c6_locator c6_fs id [] (fun _ => false) "/opt/bin/app" c6_f
    (by decide) (by decide) (by decide)).1
  rw [h]
  decide

/-! ## Theorems: suffix matching of `find_line(string)` (C3, C10) -/

theorem rfindAux_some (needle hay : List Char) :
    ∀ k p, rfindAux needle hay k = some p → occursAt needle hay p = true ∧ p ≤ k := by
  intro k
  induction k with
  | zero =>
    intro p hp
    simp only [rfindAux] at hp
    by_cases h : occursAt needle hay 0
    · rw [if_pos h] at hp
      cases hp
      exact ⟨h, Nat.le_refl 0⟩
    · rw [if_neg h] at hp
      cases hp
  | succ k ih =>
    intro p hp
    simp only [rfindAux] at hp
    by_cases h : occursAt needle hay (k + 1)
    · rw [if_pos h] at hp
      cases hp
      exact ⟨h, Nat.le_refl _⟩
    · rw [if_neg h] at hp
      obtain ⟨h1, h2⟩ := ih p hp
      exact ⟨h1, Nat.le_succ_of_le h2⟩

theorem rfindAux_ge (needle hay : List Char) :
    ∀ k q, q ≤ k → occursAt needle hay q = true →
    ∃ p, rfindAux needle hay k = some p ∧ q ≤ p := by
  intro k
  induction k with
  | zero =>
    intro q hq hocc
    have hq0 : q = 0 := Nat.le_zero.mp hq
    rw [hq0] at hocc
    exact ⟨0, by simp [rfindAux, hocc], Nat.le_of_eq hq0⟩
  | succ k ih =>
    intro q hq hocc
    by_cases h : occursAt needle hay (k + 1)
    · exact ⟨k + 1, by simp [rfindAux, h], hq⟩
    · have hq' : q ≤ k := by
        rcases Nat.lt_or_ge q (k + 1) with h' | h'
        · exact Nat.lt_succ_iff.mp h'
        · have : q = k + 1 := Nat.le_antisymm hq h'
          rw [this] at hocc
          exact absurd hocc (by simpa using h)
      obtain ⟨p, hp, hqp⟩ := ih q hq' hocc
      exact ⟨p, by simp [rfindAux, h, hp], hqp⟩

theorem occursAt_length_le (needle hay : List Char) (p : Nat)
    (h : occursAt needle hay p = true) : p + needle.length ≤ hay.length := by
  simp only [occursAt, Bool.and_eq_true, decide_eq_true_eq, beq_iff_eq] at h
  have hlen := congrArg List.length h.2
  simp only [List.length_take, List.length_drop] at hlen
  omega

theorem suffix_at_end_iff (needle hay : List Char) :
    suffix_at_end needle hay = true ↔ needle <:+ hay := by
  constructor
  · intro h
    simp only [suffix_at_end, rfind] at h
    cases hfind : rfindAux needle hay hay.length with
    | none => rw [hfind] at h; cases h
    | some p =>
      rw [hfind] at h
      have hp : p + needle.length = hay.length := by simpa using h
      obtain ⟨hocc, _⟩ := rfindAux_some needle hay hay.length p hfind
      simp only [occursAt, Bool.and_eq_true, decide_eq_true_eq, beq_iff_eq] at hocc
      have hdroplen : (hay.drop p).length = needle.length := by
        simp only [List.length_drop]
        omega
      have : hay.drop p = needle := by
        rw [← hocc.2, List.take_of_length_le (Nat.le_of_eq hdroplen)]
      rw [← this]
      exact List.drop_suffix p hay
  · intro h
    obtain ⟨t, ht⟩ := h
    have hocc : occursAt needle hay t.length = true := by
      simp only [occursAt, Bool.and_eq_true, decide_eq_true_eq, beq_iff_eq]
      constructor
      · rw [← ht]
        simp [List.length_append]
      · rw [← ht, List.drop_left, List.take_of_length_le (Nat.le_refl _)]
    have hlen : t.length ≤ hay.length := by
      rw [← ht]
      simp [List.length_append]
    obtain ⟨p, hp, hqp⟩ := rfindAux_ge needle hay hay.length t.length hlen hocc
    have ⟨hocc', _⟩ := rfindAux_some needle hay hay.length p hp
    have hple := occursAt_length_le needle hay p hocc'
    have htlen : t.length + needle.length = hay.length := by
      rw [← ht]
      simp [List.length_append]
    have hpeq : p + needle.length = hay.length := by omega
    simp [suffix_at_end, rfind, hp, hpeq]

/-- A memory map holding the single File `/src/project/foo.cpp` with line 10
(the spec's own suffix-lookup scenario). -/
def test_map : memory_map :=
  memory_map.empty.add_range "/src/project/foo.cpp" 10 ⟨0, 4⟩

/-- C3, counterexample: the query path check of `find_line(string)` is a
plain `rfind`-at-the-end suffix test with no path-separator alignment, so
`"oo.cpp:10"` — which the claim says must fail — succeeds against the stored
path `/src/project/foo.cpp`. -/
theorem c3_counterexample :
    (test_map.find_line_str "foo.cpp:10").isSome = true
    ∧ (test_map.find_line_str "oo.cpp:10").isSome = true
    ∧ test_map.find_line_str "bar.cpp:10" = none := by decide

/-- C3, amended: `find_line(string)` succeeds only when the portion of the
query before the colon is a plain suffix of some stored File's path (no
separator-boundary requirement) and that File has the requested line; the
returned Line is that File's Line. -/
theorem c3_amended (m : memory_map) (q : String) (l : line)
    (h : m.find_line_str q = some l) :
    ∃ fn rest f, splitAtColon q.data = some (fn, rest) ∧ f ∈ m.files
      ∧ fn <:+ f.name.data ∧ f.has_line (parseNatPrefix rest) = true
      ∧ l = ⟨f.name, parseNatPrefix rest⟩ := by
  unfold memory_map.find_line_str at h
  cases hsp : splitAtColon q.data with
  | none => rw [hsp] at h; cases h
  | some pr =>
    obtain ⟨fn, rest⟩ := pr
    rw [hsp] at h
    have h' : (m.files.find? (fun f => suffix_at_end fn f.name.data
        && f.has_line (parseNatPrefix rest))).map
          (fun f => line.mk f.name (parseNatPrefix rest)) = some l := h
    cases hfind : m.files.find? (fun f => suffix_at_end fn f.name.data
        && f.has_line (parseNatPrefix rest)) with
    | none => rw [hfind] at h'; cases h'
    | some f =>
      rw [hfind] at h'
      have hf := List.find?_some hfind
      rw [Bool.and_eq_true] at hf
      refine ⟨fn, rest, f, rfl, List.mem_of_find?_eq_some hfind,
        (suffix_at_end_iff _ _).mp hf.1, hf.2, ?_⟩
      simpa using h'.symm

/-- C3, witness: the amended theorem applied to the succeeding query
`"oo.cpp:10"` — a plain (non-separator-aligned) suffix match. -/
theorem c3_witness :
    ∃ fn rest f, splitAtColon ("oo.cpp:10").data = some (fn, rest)
      ∧ f ∈ test_map.files ∧ fn <:+ f.name.data
      ∧ f.has_line (parseNatPrefix rest) = true
      ∧ line.mk "/src/project/foo.cpp" 10 = ⟨f.name, parseNatPrefix rest⟩ :=
  c3_amended test_map "oo.cpp:10" ⟨"/src/project/foo.cpp", 10⟩ (by decide)

/-- C10: when the query's file part is empty (`":10"`), the empty string is a
suffix of every stored path (its `rfind` lands at the end of the haystack),
so the lookup succeeds whenever any known file has the requested line. -/
theorem c10_empty_filename (m : memory_map) (q : String) (rest : List Char)
    (h1 : splitAtColon q.data = some ([], rest))
    (h2 : ∃ f, f ∈ m.files ∧ f.has_line (parseNatPrefix rest) = true) :
    (m.find_line_str q).isSome = true := by
  obtain ⟨f, hf, hline⟩ := h2
  unfold memory_map.find_line_str
  rw [h1]
  show ((m.files.find? (fun g => suffix_at_end [] g.name.data
      && g.has_line (parseNatPrefix rest))).map
        (fun g => line.mk g.name (parseNatPrefix rest))).isSome = true
  rw [Option.isSome_map']
  rw [List.find?_isSome]
  refine ⟨f, hf, ?_⟩
  rw [Bool.and_eq_true]
  exact ⟨(suffix_at_end_iff [] f.name.data).mpr List.nil_suffix, hline⟩

/-- C10, witness: `":10"` resolves against `/src/project/foo.cpp`, which has
line 10. -/
theorem c10_witness : (test_map.find_line_str ":10").isSome = true :=
  c10_empty_filename test_map ":10" ['1', '0'] (by decide)
    ⟨⟨"/src/project/foo.cpp", [10]⟩, by decide, by decide⟩

/-! ## Theorems: path normalization collapses spellings (C7) -/

/-- C7: two spellings of the same file (equal normalizations) behave
identically under the scope test, and `add` followed by `lookup` collapses
them to one File/Line identity: after inserting disjoint ranges under the two
spellings, the map holds a single File record, and addresses in either range
resolve to the same Line identity `(normalizePath p1, n)`.  Idempotence of
normalization (second conjunct) extends this to the line-table walker's
already-normalized spellings and the inline attributor's raw call-file
spellings alike. -/
theorem c7_normalization (p1 p2 : String) (n : Nat) (scope : List String)
    (h : normalizePath p1 = normalizePath p2) :
    in_scope p1 scope = in_scope p2 scope
    ∧ normalizePath (normalizePath p1) = normalizePath p1
    ∧ ((memory_map.empty.add_range p1 n ⟨0, 4⟩).add_range p2 n ⟨4, 8⟩).files
        = [⟨normalizePath p1, [n]⟩]
    ∧ ((memory_map.empty.add_range p1 n ⟨0, 4⟩).add_range p2 n ⟨4, 8⟩).find_line_addr 1
        = some ⟨normalizePath p1, n⟩
    ∧ ((memory_map.empty.add_range p1 n ⟨0, 4⟩).add_range p2 n ⟨4, 8⟩).find_line_addr 5
        = some ⟨normalizePath p1, n⟩ := by
  have hstep1 : memory_map.empty.add_range p1 n ⟨0, 4⟩
      = ⟨[⟨normalizePath p1, [n]⟩], [(⟨0, 4⟩, ⟨normalizePath p1, n⟩)]⟩ := by
    simp [memory_map.add_range, memory_map.empty, upsertFile]
  have hover : (interval.mk 0 4).overlaps ⟨4, 8⟩ = false := by decide
  have hstep2 : (memory_map.empty.add_range p1 n ⟨0, 4⟩).add_range p2 n ⟨4, 8⟩
      = ⟨[⟨normalizePath p1, [n]⟩],
         [(⟨0, 4⟩, ⟨normalizePath p1, n⟩), (⟨4, 8⟩, ⟨normalizePath p1, n⟩)]⟩ := by
    rw [hstep1]
    simp only [memory_map.add_range]
    rw [← h]
    rw [if_neg (by simp [hover])]
    simp only [memory_map.mk.injEq]
    constructor
    · simp only [upsertFile, if_pos (show (file.mk (normalizePath p1) [n]).name
        = normalizePath p1 from rfl)]
      simp [file.get_line]
    · rfl
  refine ⟨by simp [in_scope, h], normalizePath_idem p1, ?_, ?_, ?_⟩
  · rw [hstep2]
  · rw [hstep2]
    simp [memory_map.find_line_addr, List.find?, interval.contains]
  · rw [hstep2]
    simp [memory_map.find_line_addr, List.find?, interval.contains]

/-- C7, witness: the spellings `/src/./a.c` and `/src//a.c` denote the same
file; both collapse to the single File `/src/a.c`, and lookups in both
inserted ranges return the same Line identity. -/
theorem c7_witness :
    in_scope "/src/./a.c" ["/src"] = in_scope "/src//a.c" ["/src"]
    ∧ normalizePath (normalizePath "/src/./a.c") = normalizePath "/src/./a.c"
    ∧ ((memory_map.empty.add_range "/src/./a.c" 7 ⟨0, 4⟩).add_range "/src//a.c" 7
        ⟨4, 8⟩).files = [⟨normalizePath "/src/./a.c", [7]⟩]
    ∧ ((memory_map.empty.add_range "/src/./a.c" 7 ⟨0, 4⟩).add_range "/src//a.c" 7
        ⟨4, 8⟩).find_line_addr 1 = some ⟨normalizePath "/src/./a.c", 7⟩
    ∧ ((memory_map.empty.add_range "/src/./a.c" 7 ⟨0, 4⟩).add_range "/src//a.c" 7
        ⟨4, 8⟩).find_line_addr 5 = some ⟨normalizePath "/src/./a.c", 7⟩ :=
  c7_normalization "/src/./a.c" "/src//a.c" 7 ["/src"] (by decide)
